import Mathlib

/-!
Shallow embedding of `ck_ring.h` (concurrency-kit ring buffer).

The ring control block `struct ck_ring` holds two unsigned-int counters
(`c_head`, `p_tail`) plus `size` and `mask`.  Unsigned ints are modelled as
natural numbers taken modulo `U = 2 ^ 32`; every C arithmetic operation that
can wrap is followed by an explicit `% U`.  The caller-supplied slot array
(`ck_ring_buffer_t`, a bare pointer to `void *` slots) is modelled as a total
function `Nat → α`; a store to slot `i` is a pointwise function update.

Out-parameter stores (`*size = ...`, `ck_pr_store_ptr(data, ...)`) are
modelled as `Option` results: `some v` means the callee stored `v` through
the pointer, `none` means the location was not written.

The SPMC dequeue paths contain a compare-and-swap on `c_head` that can be
defeated by concurrent consumers.  Those functions are embedded twice: an
observation-parameterised version in which the values produced by each
shared-memory load (and the value of `c_head` at the moment the CAS executes)
are explicit inputs, and an interference-free wrapper that instantiates the
observations from the ring state itself.  Fences (`ck_pr_fence_load`,
`ck_pr_fence_store`, `ck_pr_fence_memory`) order memory accesses and have no
effect on the functional value of an execution, so they vanish in the
embedding.
-/

/-- `2 ^ W` for the `W = 32` bit unsigned `c_head` / `p_tail` counters. -/
def U : Nat := 2 ^ 32

/-- C unsigned subtraction `a - b` on 32-bit unsigned ints (wraps mod `2^32`);
faithful whenever `b < U`. -/
def usub (a b : Nat) : Nat := (a + U - b) % U

/-- `struct ck_ring` (the cache-line padding fields carry no data and are
dropped). -/
structure ck_ring where
  c_head : Nat
  p_tail : Nat
  size : Nat
  mask : Nat
deriving DecidableEq

/-- The externally owned slot array reached through `ck_ring_buffer_t`. -/
def RingBuf (α : Type) : Type := Nat → α

/-- Store `v` into slot `i` of the slot array. -/
def bufWrite (b : RingBuf α) (i : Nat) (v : α) : RingBuf α :=
  fun j => if j = i then v else b j

/-- Read slot `i` of the slot array. -/
def bufRead (b : RingBuf α) (i : Nat) : α := b i

/-- `ck_ring_size`: `(p_tail - c_head) & mask` from fresh loads of both
counters. -/
def ck_ring_size (ring : ck_ring) : Nat :=
  usub ring.p_tail ring.c_head &&& ring.mask

/-- `ck_ring_capacity`. -/
def ck_ring_capacity (ring : ck_ring) : Nat := ring.size

/-- Result of `ck_ring_enqueue_spsc`: return value plus the ring and slot
array after the call. -/
structure EnqRes (α : Type) where
  ok : Bool
  ring : ck_ring
  buf : RingBuf α

/-- Result of `ck_ring_enqueue_spsc_size`: additionally the value stored
through the `unsigned int *size` out-parameter (`none` = never stored). -/
structure EnqSizeRes (α : Type) where
  ok : Bool
  ring : ck_ring
  buf : RingBuf α
  sizeOut : Option Nat

/-- Result of a dequeue: return value, ring after the call, and the value
stored through the `void *data` out-parameter (`none` = never stored).
Dequeues never write the slot array, so it is not part of the result. -/
structure DeqRes (α : Type) where
  ok : Bool
  ring : ck_ring
  dataOut : Option α

/-- `ck_ring_enqueue_spsc_size` (ck_ring.h lines 83-109).  Loads `c_head`,
reads `p_tail`, computes `delta = producer + 1` (wrapping) and stores the
length snapshot `(producer - consumer) & mask` to `*size` before the
full-ring check. -/
def ck_ring_enqueue_spsc_size (ring : ck_ring) (buf : RingBuf α) (entry : α) :
    EnqSizeRes α :=
  let mask := ring.mask
  let consumer := ring.c_head
  let producer := ring.p_tail
  let delta := (producer + 1) % U
  let sz := usub producer consumer &&& mask
  if delta &&& mask = consumer &&& mask then
    ⟨false, ring, buf, some sz⟩
  else
    ⟨true, { ring with p_tail := delta },
      bufWrite buf (producer &&& mask) entry, some sz⟩

/-- `ck_ring_enqueue_spsc` (ck_ring.h lines 117-140). -/
def ck_ring_enqueue_spsc (ring : ck_ring) (buf : RingBuf α) (entry : α) :
    EnqRes α :=
  let mask := ring.mask
  let consumer := ring.c_head
  let producer := ring.p_tail
  let delta := (producer + 1) % U
  if delta &&& mask = consumer &&& mask then
    ⟨false, ring, buf⟩
  else
    ⟨true, { ring with p_tail := delta },
      bufWrite buf (producer &&& mask) entry⟩

/-- `ck_ring_dequeue_spsc` (ck_ring.h lines 145-175). -/
def ck_ring_dequeue_spsc (ring : ck_ring) (buf : RingBuf α) : DeqRes α :=
  let mask := ring.mask
  let consumer := ring.c_head
  let producer := ring.p_tail
  if consumer = producer then ⟨false, ring, none⟩
  else
    ⟨true, { ring with c_head := (consumer + 1) % U },
      some (bufRead buf (consumer &&& mask))⟩

/-- `ck_ring_enqueue_spmc_size` (ck_ring.h lines 188-195): delegates to
`ck_ring_enqueue_spsc_size`. -/
def ck_ring_enqueue_spmc_size (ring : ck_ring) (buf : RingBuf α) (entry : α) :
    EnqSizeRes α :=
  ck_ring_enqueue_spsc_size ring buf entry

/-- `ck_ring_enqueue_spmc` (ck_ring.h lines 203-208): delegates to
`ck_ring_enqueue_spsc`. -/
def ck_ring_enqueue_spmc (ring : ck_ring) (buf : RingBuf α) (entry : α) :
    EnqRes α :=
  ck_ring_enqueue_spsc ring buf entry

/-- Observations of one run of `ck_ring_trydequeue_spmc` under concurrent
interference: the values returned by the loads of `c_head` and `p_tail`, the
slot-array contents at the moment of the `ck_pr_load_ptr` slot read, and the
value `c_head` holds when the single `ck_pr_cas_uint` executes. -/
structure TryDeqObs (α : Type) where
  head0 : Nat
  tail0 : Nat
  slotAtRead : RingBuf α
  head_cas : Nat

/-- Effects of one run of `ck_ring_trydequeue_spmc`: return value, `*data`
store (`none` = never stored), the new `c_head` value if its CAS succeeded
(`none` = `c_head` untouched by this call), and how many CAS instructions
the run executed. -/
structure TryDeqRes (α : Type) where
  ok : Bool
  dataOut : Option α
  casEffect : Option Nat
  casAttempts : Nat

/-- `ck_ring_trydequeue_spmc` (ck_ring.h lines 210-229) parameterised by the
observations of its shared-memory accesses: load `c_head`, load `p_tail`,
return false if equal; otherwise store the slot value to `*data`, then return
the result of the single CAS of `c_head` from `consumer` to `consumer + 1`. -/
def ck_ring_trydequeue_spmc_obs (mask : Nat) (o : TryDeqObs α) : TryDeqRes α :=
  let consumer := o.head0
  let producer := o.tail0
  if consumer = producer then ⟨false, none, none, 0⟩
  else
    let r := bufRead o.slotAtRead (consumer &&& mask)
    if o.head_cas = consumer then ⟨true, some r, some ((consumer + 1) % U), 1⟩
    else ⟨false, some r, none, 1⟩

/-- `ck_ring_trydequeue_spmc` run without interference: every load sees the
ring state at entry and the CAS finds `c_head` unchanged. -/
def ck_ring_trydequeue_spmc (ring : ck_ring) (buf : RingBuf α) : DeqRes α :=
  let res := ck_ring_trydequeue_spmc_obs ring.mask
    ⟨ring.c_head, ring.p_tail, buf, ring.c_head⟩
  ⟨res.ok, { ring with c_head := res.casEffect.getD ring.c_head }, res.dataOut⟩

/-- Observations of one iteration of the `ck_ring_dequeue_spmc` retry loop:
the `p_tail` value loaded, the slot-array contents at the `ck_pr_load_ptr`,
and the value `c_head` holds when the iteration's CAS executes. -/
structure SpmcIterObs (α : Type) where
  tail : Nat
  slotAtRead : RingBuf α
  head_cas : Nat

/-- The `do { ... } while (cas_value(...) == false)` loop of
`ck_ring_dequeue_spmc` (ck_ring.h lines 241-268), parameterised by the
per-iteration observations (the list doubles as fuel; `none` = the given
observations were exhausted with the loop still spinning).  Each iteration:
load `p_tail`; if it equals the consumer snapshot return false having stored
nothing; otherwise latch `r` from slot `consumer & mask` and CAS `c_head`
from `consumer` to `consumer + 1`.  `ck_pr_cas_uint_value` writes the
observed `c_head` back into `consumer` on failure, which becomes the next
iteration's snapshot.  On CAS success the function stores `r` to `*data`
and returns true. -/
def ck_ring_dequeue_spmc_loop (mask : Nat) (consumer : Nat) :
    List (SpmcIterObs α) → Option (Bool × Option α × Option Nat)
  | [] => none
  | o :: rest =>
    if consumer = o.tail then some (false, none, none)
    else
      let r := bufRead o.slotAtRead (consumer &&& mask)
      if o.head_cas = consumer then
        some (true, some r, some ((consumer + 1) % U))
      else
        ck_ring_dequeue_spmc_loop mask o.head_cas rest

/-- `ck_ring_dequeue_spmc` (ck_ring.h lines 231-276) run without
interference: a single iteration whose CAS finds `c_head` unchanged. -/
def ck_ring_dequeue_spmc (ring : ck_ring) (buf : RingBuf α) : DeqRes α :=
  match ck_ring_dequeue_spmc_loop ring.mask ring.c_head
      [⟨ring.p_tail, buf, ring.c_head⟩] with
  | some (ok, d, eff) => ⟨ok, { ring with c_head := eff.getD ring.c_head }, d⟩
  | none => ⟨false, ring, none⟩

/-- `ck_ring_init` (ck_ring.h lines 278-287). -/
def ck_ring_init (ring : ck_ring) (size : Nat) : ck_ring :=
  { ring with size := size, mask := size - 1, p_tail := 0, c_head := 0 }

/-- Run `ck_ring_enqueue_spsc` once per list element, stopping at the first
failure; the Bool records whether every enqueue returned true. -/
def enqueueAll : ck_ring → RingBuf α → List α → Bool × ck_ring × RingBuf α
  | r, b, [] => (true, r, b)
  | r, b, e :: es =>
    let r1 := ck_ring_enqueue_spsc r b e
    if r1.ok then enqueueAll r1.ring r1.buf es
    else (false, r1.ring, r1.buf)

/-- Run `ck_ring_dequeue_spsc` `n` times, collecting the dequeued values in
order; the Bool records whether every dequeue returned true. -/
def dequeueN : ck_ring → RingBuf α → Nat → Bool × ck_ring × List α
  | r, _, 0 => (true, r, [])
  | r, b, n + 1 =>
    match ck_ring_dequeue_spsc r b with
    | ⟨true, r1, some d⟩ =>
      let rest := dequeueN r1 b n
      (rest.1, rest.2.1, d :: rest.2.2)
    | res => (false, res.ring, [])

/-- Alternating pairs: for each list element run one `ck_ring_enqueue_spsc`
followed by one `ck_ring_dequeue_spsc`, collecting the dequeued values;
`none` as soon as any operation fails. -/
def altPairs : ck_ring → RingBuf α → List α → Option (ck_ring × RingBuf α × List α)
  | r, b, [] => some (r, b, [])
  | r, b, e :: es =>
    let e1 := ck_ring_enqueue_spsc r b e
    if e1.ok then
      match ck_ring_dequeue_spsc e1.ring e1.buf with
      | ⟨true, r2, some d⟩ =>
        match altPairs r2 e1.buf es with
        | some (r3, b3, ds) => some (r3, b3, d :: ds)
        | none => none
      | _ => none
    else none

/-- Well-formed control block: counters are genuine 32-bit values, `size` is
a power of two (equivalently, a divisor of `2^32`) with `2 ≤ size < 2^32`,
and `mask = size - 1`. -/
def ringWF (r : ck_ring) : Prop :=
  r.c_head < U ∧ r.p_tail < U ∧ 2 ≤ r.size ∧ r.size < U ∧ r.size ∣ U ∧
    r.mask = r.size - 1

/-- Occupancy: the modular distance `(p_tail - c_head) mod 2^W`. -/
def occ (r : ck_ring) : Nat := usub r.p_tail r.c_head

/-- Inductive ring invariant: well-formed and strictly fewer than `size`
live entries (one slot stays empty to separate full from empty). -/
def ringInv (r : ck_ring) : Prop := ringWF r ∧ occ r < r.size

instance : DecidablePred ringWF := fun r => by
  unfold ringWF; infer_instance

instance : DecidablePred ringInv := fun r => by
  unfold ringInv occ; infer_instance

/-! ## Arithmetic toolbox for the counter protocol -/

/-- A divisor of `2 ^ 32` is a power of two. -/
lemma size_pow_of_dvd (hdvd : s ∣ U) : ∃ k, k ≤ 32 ∧ s = 2 ^ k := by
  obtain ⟨k, hk, hs⟩ := (Nat.dvd_prime_pow Nat.prime_two).mp hdvd
  exact ⟨k, hk, hs⟩

/-- For a power-of-two `size`, masking with `size - 1` is reduction mod
`size`. -/
lemma mask_eq_mod (hdvd : s ∣ U) (x : Nat) : x &&& (s - 1) = x % s := by
  obtain ⟨k, _, hs⟩ := size_pow_of_dvd hdvd
  subst hs
  exact Nat.and_pow_two_sub_one_eq_mod x k

/-- Reducing mod `2^32` first does not change a reduction mod `size`. -/
lemma mod_U_mod (hdvd : s ∣ U) (x : Nat) : x % U % s = x % s :=
  Nat.mod_mod_of_dvd x hdvd

lemma U_mod_s (hdvd : s ∣ U) : U % s = 0 :=
  Nat.mod_eq_zero_of_dvd hdvd

lemma usub_lt_U (a b : Nat) : usub a b < U := by
  unfold usub U; omega

lemma usub_eq_zero_iff (hb : b < U) (ha : a < U) : usub a b = 0 ↔ a = b := by
  unfold usub U at *; omega

lemma usub_succ_left (hb : b < U) (ha : a < U) :
    usub ((a + 1) % U) b = (usub a b + 1) % U := by
  unfold usub U at *; omega

lemma usub_succ_right (hb : b < U) (ha : a < U) (hne : b ≠ a) :
    usub a ((b + 1) % U) = usub a b - 1 ∧ 1 ≤ usub a b := by
  unfold usub U at *; omega

/-- The enqueue full test `(delta & mask) == (c_head & mask)`, rephrased mod
`size`, detects exactly the configurations where the occupancy is about to
hit a multiple of `size`. -/
lemma enq_cond_iff (hc : c < U) (hdvd : s ∣ U) :
    ((p + 1) % U % s = c % s) ↔ (usub p c + 1) % s = 0 := by
  rw [mod_U_mod hdvd]
  unfold usub
  have h2 : ((p + U - c) % U + 1) % s = ((p + 1) + (U - c)) % s := by
    conv_lhs => rw [Nat.add_mod, mod_U_mod hdvd]
    rw [← Nat.add_mod]
    congr 1
    omega
  rw [h2]
  have hU : c + (U - c) = U := by omega
  constructor
  · intro h
    have h3 : ((p + 1) + (U - c)) % s = (c + (U - c)) % s :=
      Nat.ModEq.add_right _ h
    rw [h3, hU, U_mod_s hdvd]
  · intro h
    have h3 : ((p + 1) + (U - c)) % s = (c + (U - c)) % s := by
      rw [hU, h, U_mod_s hdvd]
    exact Nat.ModEq.add_right_cancel' _ h3

/-- Under the occupancy invariant, the full test holds exactly when the ring
already holds `size - 1` entries. -/
lemma enq_cond_iff_full (hc : c < U) (hdvd : s ∣ U) (hs2 : 2 ≤ s)
    (hocc : usub p c < s) :
    ((p + 1) % U % s = c % s) ↔ usub p c = s - 1 := by
  rw [enq_cond_iff hc hdvd]
  constructor
  · intro h
    have hdv : s ∣ usub p c + 1 := Nat.dvd_of_mod_eq_zero h
    have := Nat.le_of_dvd (by omega) hdv
    omega
  · intro h
    rw [h]
    have h1 : s - 1 + 1 = s := by omega
    rw [h1, Nat.mod_self]

/-- Incrementing never fixes a residue mod `size ≥ 2`. -/
lemma succ_mod_ne (hs2 : 2 ≤ s) (v : Nat) : (v + 1) % s ≠ v % s := by
  intro h
  have hlt : v % s < s := Nat.mod_lt _ (by omega)
  have h1mod : 1 % s = 1 := Nat.one_mod_eq_one.mpr (by omega)
  have h1 : (v + 1) % s = (v % s + 1) % s := by
    rw [Nat.add_mod, h1mod]
  rcases Nat.lt_or_ge (v % s + 1) s with hcase | hcase
  · rw [h1, Nat.mod_eq_of_lt hcase] at h
    omega
  · have h2 : v % s + 1 = s := by omega
    rw [h1, h2, Nat.mod_self] at h
    omega

/-! ## Characterization of each operation by its branch condition -/

/-- The full test of both enqueue variants, verbatim from the source. -/
def enqFullCond (r : ck_ring) : Prop :=
  (r.p_tail + 1) % U &&& r.mask = r.c_head &&& r.mask

instance : DecidablePred enqFullCond := fun r => by
  unfold enqFullCond; infer_instance

lemma enqueue_spsc_full (r : ck_ring) (b : RingBuf α) (e : α)
    (h : enqFullCond r) : ck_ring_enqueue_spsc r b e = ⟨false, r, b⟩ := by
  unfold ck_ring_enqueue_spsc
  simp only [enqFullCond] at h
  simp [h]

lemma enqueue_spsc_not_full (r : ck_ring) (b : RingBuf α) (e : α)
    (h : ¬ enqFullCond r) :
    ck_ring_enqueue_spsc r b e =
      ⟨true, { r with p_tail := (r.p_tail + 1) % U },
        bufWrite b (r.p_tail &&& r.mask) e⟩ := by
  unfold ck_ring_enqueue_spsc
  simp only [enqFullCond] at h
  simp [h]

lemma enqueue_spsc_size_full (r : ck_ring) (b : RingBuf α) (e : α)
    (h : enqFullCond r) :
    ck_ring_enqueue_spsc_size r b e = ⟨false, r, b, some (ck_ring_size r)⟩ := by
  unfold ck_ring_enqueue_spsc_size ck_ring_size
  simp only [enqFullCond] at h
  simp [h]

lemma enqueue_spsc_size_not_full (r : ck_ring) (b : RingBuf α) (e : α)
    (h : ¬ enqFullCond r) :
    ck_ring_enqueue_spsc_size r b e =
      ⟨true, { r with p_tail := (r.p_tail + 1) % U },
        bufWrite b (r.p_tail &&& r.mask) e, some (ck_ring_size r)⟩ := by
  unfold ck_ring_enqueue_spsc_size ck_ring_size
  simp only [enqFullCond] at h
  simp [h]

lemma dequeue_spsc_empty (r : ck_ring) (b : RingBuf α)
    (h : r.c_head = r.p_tail) : ck_ring_dequeue_spsc r b = ⟨false, r, none⟩ := by
  unfold ck_ring_dequeue_spsc
  simp [h]

lemma dequeue_spsc_nonempty (r : ck_ring) (b : RingBuf α)
    (h : r.c_head ≠ r.p_tail) :
    ck_ring_dequeue_spsc r b =
      ⟨true, { r with c_head := (r.c_head + 1) % U },
        some (bufRead b (r.c_head &&& r.mask))⟩ := by
  unfold ck_ring_dequeue_spsc
  simp [h]

/-- Without interference both SPMC dequeues coincide with the SPSC dequeue. -/
lemma spmc_dequeues_agree_seq (r : ck_ring) (b : RingBuf α) :
    ck_ring_dequeue_spmc r b = ck_ring_dequeue_spsc r b ∧
    ck_ring_trydequeue_spmc r b = ck_ring_dequeue_spsc r b := by
  obtain ⟨c, p, s, m⟩ := r
  constructor
  · unfold ck_ring_dequeue_spmc ck_ring_dequeue_spmc_loop ck_ring_dequeue_spsc
    by_cases h : c = p <;> simp [h]
  · unfold ck_ring_trydequeue_spmc ck_ring_trydequeue_spmc_obs ck_ring_dequeue_spsc
    by_cases h : c = p <;> simp [h]

lemma enqueue_spsc_ok_false_iff (r : ck_ring) (b : RingBuf α) (e : α) :
    (ck_ring_enqueue_spsc r b e).ok = false ↔ enqFullCond r := by
  by_cases h : enqFullCond r
  · rw [enqueue_spsc_full r b e h]; simp [h]
  · rw [enqueue_spsc_not_full r b e h]; simp [h]

lemma enqueue_spsc_size_ok_false_iff (r : ck_ring) (b : RingBuf α) (e : α) :
    (ck_ring_enqueue_spsc_size r b e).ok = false ↔ enqFullCond r := by
  by_cases h : enqFullCond r
  · rw [enqueue_spsc_size_full r b e h]; simp [h]
  · rw [enqueue_spsc_size_not_full r b e h]; simp [h]

/-- On a well-formed ring the source's wrapped full test coincides with the
spec's unwrapped formulation `((p_tail + 1) & mask) == (c_head & mask)`. -/
lemma enqFullCond_iff_claim (r : ck_ring) (hWF : ringWF r) :
    enqFullCond r ↔ (r.p_tail + 1) &&& r.mask = r.c_head &&& r.mask := by
  obtain ⟨hc, hp, hs2, hsU, hdvd, hm⟩ := hWF
  unfold enqFullCond
  rw [hm, mask_eq_mod hdvd, mask_eq_mod hdvd, mask_eq_mod hdvd, mod_U_mod hdvd]

/-- C2: for every (well-formed) ring state, both enqueue variants return
false exactly when `((p_tail + 1) & mask) == (c_head & mask)` holds for the
counters they read; concretely, on a freshly initialized size-4 ring three
consecutive enqueues succeed and the fourth fails. -/
theorem c2_enqueue_false_iff_full (r : ck_ring) (b : RingBuf α) (e : α)
    (hWF : ringWF r) :
    ((ck_ring_enqueue_spsc r b e).ok = false ↔
      (r.p_tail + 1) &&& r.mask = r.c_head &&& r.mask) ∧
    ((ck_ring_enqueue_spsc_size r b e).ok = false ↔
      (r.p_tail + 1) &&& r.mask = r.c_head &&& r.mask) ∧
    (enqueueAll (ck_ring_init ⟨0, 0, 0, 0⟩ 4) (fun _ => (0 : Nat))
        [1, 2, 3]).1 = true ∧
    (ck_ring_enqueue_spsc
      (enqueueAll (ck_ring_init ⟨0, 0, 0, 0⟩ 4) (fun _ => (0 : Nat))
        [1, 2, 3]).2.1
      (enqueueAll (ck_ring_init ⟨0, 0, 0, 0⟩ 4) (fun _ => (0 : Nat))
        [1, 2, 3]).2.2 4).ok = false := by
  refine ⟨?_, ?_, by decide, by decide⟩
  · rw [enqueue_spsc_ok_false_iff, enqFullCond_iff_claim r hWF]
  · rw [enqueue_spsc_size_ok_false_iff, enqFullCond_iff_claim r hWF]

/-- Witness for C2 at the concrete full ring `⟨0, 3, 4, 3⟩`. -/
theorem c2_witness :
    (ck_ring_enqueue_spsc ⟨0, 3, 4, 3⟩ (fun _ => (0 : Nat)) 9).ok = false ↔
      (3 + 1) &&& 3 = 0 &&& 3 :=
  (c2_enqueue_false_iff_full ⟨0, 3, 4, 3⟩ (fun _ => (0 : Nat)) 9 (by decide)).1

/-- C4 counterexample: on the full size-2 ring `⟨0, 1, 2, 1⟩`,
`ck_ring_enqueue_spsc_size` returns false yet stores the length snapshot `1`
through the `size` out-parameter, so not all caller-visible output locations
are left unchanged. -/
theorem c4_counterexample :
    enqFullCond ⟨0, 1, 2, 1⟩ ∧
    (ck_ring_enqueue_spsc_size ⟨0, 1, 2, 1⟩ (fun _ => (0 : Nat)) 7).ok =
      false ∧
    (ck_ring_enqueue_spsc_size ⟨0, 1, 2, 1⟩ (fun _ => (0 : Nat)) 7).sizeOut =
      some 1 ∧
    (ck_ring_enqueue_spmc_size ⟨0, 1, 2, 1⟩ (fun _ => (0 : Nat)) 7).sizeOut ≠
      none := by
  refine ⟨by decide, by decide, by decide, by decide⟩

/-- C4 (amended): when the full condition holds, every enqueue variant
returns false leaving the ring counters and the slot array untouched, and
the plain variants store nothing at all; the `_size` variants, however, have
already stored the pre-check length snapshot through their `size`
out-parameter. -/
theorem c4_full_enqueue_no_store (r : ck_ring) (b : RingBuf α) (e : α)
    (hfull : enqFullCond r) :
    ck_ring_enqueue_spsc r b e = ⟨false, r, b⟩ ∧
    ck_ring_enqueue_spmc r b e = ⟨false, r, b⟩ ∧
    ck_ring_enqueue_spsc_size r b e = ⟨false, r, b, some (ck_ring_size r)⟩ ∧
    ck_ring_enqueue_spmc_size r b e = ⟨false, r, b, some (ck_ring_size r)⟩ :=
  ⟨enqueue_spsc_full r b e hfull, enqueue_spsc_full r b e hfull,
    enqueue_spsc_size_full r b e hfull, enqueue_spsc_size_full r b e hfull⟩

/-- Witness for the amended C4 at the concrete full ring `⟨0, 1, 2, 1⟩`. -/
theorem c4_witness :
    ck_ring_enqueue_spsc ⟨0, 1, 2, 1⟩ (fun _ => (0 : Nat)) 7 =
      ⟨false, ⟨0, 1, 2, 1⟩, fun _ => (0 : Nat)⟩ :=
  (c4_full_enqueue_no_store ⟨0, 1, 2, 1⟩ (fun _ => (0 : Nat)) 7 (by decide)).1

/-- C5: whether or not the insertion succeeds, `ck_ring_enqueue_spsc_size`
(and its SPMC delegate) stores through its `size` out-parameter exactly the
pre-insertion snapshot `(p_tail - c_head) & mask` of the counters it read,
i.e. the same value `ck_ring_size` reports on the pre-call state. -/
theorem c5_size_out_is_preinsertion_snapshot (r : ck_ring) (b : RingBuf α)
    (e : α) :
    (ck_ring_enqueue_spsc_size r b e).sizeOut = some (ck_ring_size r) ∧
    (ck_ring_enqueue_spmc_size r b e).sizeOut = some (ck_ring_size r) ∧
    ck_ring_size r = usub r.p_tail r.c_head &&& r.mask := by
  have h : (ck_ring_enqueue_spsc_size r b e).sizeOut = some (ck_ring_size r) := by
    by_cases hf : enqFullCond r
    · rw [enqueue_spsc_size_full r b e hf]
    · rw [enqueue_spsc_size_not_full r b e hf]
  exact ⟨h, h, rfl⟩

/-- C8: the SPMC producer side is literally the SPSC producer side — both
delegate wrappers agree with the SPSC functions on every input, results,
ring state, slot array and size output included. -/
theorem c8_spmc_producer_eq_spsc (r : ck_ring) (b : RingBuf α) (e : α) :
    ck_ring_enqueue_spmc r b e = ck_ring_enqueue_spsc r b e ∧
    ck_ring_enqueue_spmc_size r b e = ck_ring_enqueue_spsc_size r b e :=
  ⟨rfl, rfl⟩

/-- C6: `ck_ring_trydequeue_spmc` executes its CAS at most once (not at all
when it observes the ring empty, exactly once otherwise); it returns false
exactly when the ring looked empty or that single CAS failed; and when the
CAS succeeds it returns true having stored through `data` the slot value
`slot[c_head & mask]` latched before the CAS, advancing `c_head` by one. -/
theorem c6_trydequeue_single_cas (mask : Nat) (o : TryDeqObs α) :
    (ck_ring_trydequeue_spmc_obs mask o).casAttempts ≤ 1 ∧
    (o.head0 = o.tail0 →
      ck_ring_trydequeue_spmc_obs mask o = ⟨false, none, none, 0⟩) ∧
    (o.head0 ≠ o.tail0 →
      (ck_ring_trydequeue_spmc_obs mask o).casAttempts = 1) ∧
    ((ck_ring_trydequeue_spmc_obs mask o).ok = false ↔
      (o.head0 = o.tail0 ∨ o.head_cas ≠ o.head0)) ∧
    (o.head0 ≠ o.tail0 → o.head_cas = o.head0 →
      ck_ring_trydequeue_spmc_obs mask o =
        ⟨true, some (bufRead o.slotAtRead (o.head0 &&& mask)),
          some ((o.head0 + 1) % U), 1⟩) := by
  unfold ck_ring_trydequeue_spmc_obs
  by_cases h1 : o.head0 = o.tail0 <;> by_cases h2 : o.head_cas = o.head0 <;>
    simp [h1, h2]

/-- Witness for C6: a successful uncontended try-dequeue on a nonempty
observation. -/
theorem c6_witness :
    ck_ring_trydequeue_spmc_obs 1
        (⟨0, 2, fun _ => (5 : Nat), 0⟩ : TryDeqObs Nat) =
      ⟨true, some 5, some 1, 1⟩ :=
  (c6_trydequeue_single_cas 1
    (⟨0, 2, fun _ => (5 : Nat), 0⟩ : TryDeqObs Nat)).2.2.2.2 (by decide) rfl

/-- C10: on a nonempty observation `ck_ring_trydequeue_spmc` stores the
latched slot value through `data` before its CAS runs — so the caller's
location is overwritten even on a run whose CAS fails and which returns
false — whereas `ck_ring_dequeue_spmc` stores through `data` exactly on the
runs that return true (i.e. only after its CAS has succeeded). -/
theorem c10_data_write_discipline (α : Type) :
    (∀ (mask : Nat) (o : TryDeqObs α), o.head0 ≠ o.tail0 →
      (ck_ring_trydequeue_spmc_obs mask o).dataOut =
        some (bufRead o.slotAtRead (o.head0 &&& mask)) ∧
      (o.head_cas ≠ o.head0 →
        (ck_ring_trydequeue_spmc_obs mask o).ok = false)) ∧
    (∀ (mask consumer : Nat) (obss : List (SpmcIterObs α)) (ok : Bool)
        (d : Option α) (eff : Option Nat),
      ck_ring_dequeue_spmc_loop mask consumer obss = some (ok, d, eff) →
      (ok = false → d = none) ∧ (ok = true → d.isSome = true)) := by
  constructor
  · intro mask o h1
    unfold ck_ring_trydequeue_spmc_obs
    by_cases h2 : o.head_cas = o.head0 <;> simp [h1, h2]
  · intro mask consumer obss
    induction obss generalizing consumer with
    | nil => intro ok d eff h; simp [ck_ring_dequeue_spmc_loop] at h
    | cons o rest ih =>
      intro ok d eff h
      unfold ck_ring_dequeue_spmc_loop at h
      by_cases h1 : consumer = o.tail
      · simp [h1] at h
        obtain ⟨hok, hd, _⟩ := h
        subst hok
        exact ⟨fun _ => hd.symm, fun hx => by simp at hx⟩
      · by_cases h2 : o.head_cas = consumer
        · simp [h1, h2] at h
          obtain ⟨hok, hd, _⟩ := h
          subst hok
          refine ⟨fun hx => by simp at hx, fun _ => ?_⟩
          rw [← hd]
          rfl
        · simp [h1, h2] at h
          exact ih o.head_cas ok d eff h

/-- Witness for C10: a try-dequeue whose CAS fails still wrote `7` through
`data` while returning false. -/
theorem c10_witness :
    (ck_ring_trydequeue_spmc_obs 1
        (⟨0, 2, fun _ => (7 : Nat), 5⟩ : TryDeqObs Nat)).dataOut = some 7 ∧
    (ck_ring_trydequeue_spmc_obs 1
        (⟨0, 2, fun _ => (7 : Nat), 5⟩ : TryDeqObs Nat)).ok = false := by
  have h := (c10_data_write_discipline Nat).1 1
    (⟨0, 2, fun _ => (7 : Nat), 5⟩ : TryDeqObs Nat) (by decide)
  exact ⟨h.1, h.2 (by decide)⟩

/-! ## Invariant preservation and counter monotonicity -/

lemma U_pos : 0 < U := by unfold U; omega

/-- A counter transition performed by one ring operation: either untouched
or advanced by exactly one modulo `2^32`. -/
def counterStep (old new : Nat) : Prop := new = old ∨ new = (old + 1) % U

/-- Under the invariant, the full test fires exactly at occupancy
`size - 1`. -/
lemma enqFullCond_iff_occ (r : ck_ring) (h : ringInv r) :
    enqFullCond r ↔ occ r = r.size - 1 := by
  obtain ⟨⟨hc, hp, hs2, hsU, hdvd, hm⟩, hocc⟩ := h
  unfold enqFullCond
  rw [hm, mask_eq_mod hdvd, mask_eq_mod hdvd]
  exact enq_cond_iff_full hc hdvd hs2 hocc

lemma enqueue_spsc_size_ring_eq (r : ck_ring) (b : RingBuf α) (e : α) :
    (ck_ring_enqueue_spsc_size r b e).ring = (ck_ring_enqueue_spsc r b e).ring := by
  by_cases hf : enqFullCond r
  · rw [enqueue_spsc_size_full r b e hf, enqueue_spsc_full r b e hf]
  · rw [enqueue_spsc_size_not_full r b e hf, enqueue_spsc_not_full r b e hf]

lemma ringInv_enqueue_spsc (r : ck_ring) (b : RingBuf α) (e : α)
    (h : ringInv r) : ringInv (ck_ring_enqueue_spsc r b e).ring := by
  by_cases hf : enqFullCond r
  · rw [enqueue_spsc_full r b e hf]
    exact h
  · rw [enqueue_spsc_not_full r b e hf]
    obtain ⟨⟨hc, hp, hs2, hsU, hdvd, hm⟩, hocc⟩ := h
    have hne : occ r ≠ r.size - 1 := fun hh => hf ((enqFullCond_iff_occ r
      ⟨⟨hc, hp, hs2, hsU, hdvd, hm⟩, hocc⟩).mpr hh)
    have hocc2 : occ r + 1 < r.size := by omega
    have hoccU : occ r + 1 < U := lt_trans hocc2 hsU
    have hstep : usub ((r.p_tail + 1) % U) r.c_head = occ r + 1 := by
      rw [usub_succ_left hc hp]
      exact Nat.mod_eq_of_lt hoccU
    constructor
    · exact ⟨hc, Nat.mod_lt _ U_pos, hs2, hsU, hdvd, hm⟩
    · show usub ((r.p_tail + 1) % U) r.c_head < r.size
      rw [hstep]
      exact hocc2

lemma ringInv_dequeue_spsc (r : ck_ring) (b : RingBuf α)
    (h : ringInv r) : ringInv (ck_ring_dequeue_spsc r b).ring := by
  by_cases hemp : r.c_head = r.p_tail
  · rw [dequeue_spsc_empty r b hemp]
    exact h
  · rw [dequeue_spsc_nonempty r b hemp]
    obtain ⟨⟨hc, hp, hs2, hsU, hdvd, hm⟩, hocc⟩ := h
    obtain ⟨hdec, hge⟩ := usub_succ_right hc hp hemp
    constructor
    · exact ⟨Nat.mod_lt _ U_pos, hp, hs2, hsU, hdvd, hm⟩
    · show usub r.p_tail ((r.c_head + 1) % U) < r.size
      rw [hdec]
      have hocc2 : usub r.p_tail r.c_head < r.size := hocc
      omega

lemma enqueue_spsc_counters (r : ck_ring) (b : RingBuf α) (e : α) :
    (ck_ring_enqueue_spsc r b e).ring.c_head = r.c_head ∧
    counterStep r.p_tail (ck_ring_enqueue_spsc r b e).ring.p_tail := by
  by_cases hf : enqFullCond r
  · rw [enqueue_spsc_full r b e hf]
    exact ⟨rfl, Or.inl rfl⟩
  · rw [enqueue_spsc_not_full r b e hf]
    exact ⟨rfl, Or.inr rfl⟩

lemma dequeue_spsc_counters (r : ck_ring) (b : RingBuf α) :
    (ck_ring_dequeue_spsc r b).ring.p_tail = r.p_tail ∧
    counterStep r.c_head (ck_ring_dequeue_spsc r b).ring.c_head := by
  by_cases hemp : r.c_head = r.p_tail
  · rw [dequeue_spsc_empty r b hemp]
    exact ⟨rfl, Or.inl rfl⟩
  · rw [dequeue_spsc_nonempty r b hemp]
    exact ⟨rfl, Or.inr rfl⟩

/-- C3: initialization with a valid size establishes the ring invariant;
every operation preserves it; the occupancy `(p_tail - c_head) mod 2^W`
never exceeds `size`; and no operation ever decreases a counter — each call
leaves each counter unchanged or advances it by exactly one mod `2^32`
(`c_head` only by dequeues, `p_tail` only by enqueues). -/
theorem c3_invariant_and_monotonicity (r : ck_ring) (b : RingBuf α) (e : α)
    (s : Nat) :
    (2 ≤ s → s ∣ U → s < U →
      ringInv (ck_ring_init r s) ∧ occ (ck_ring_init r s) = 0) ∧
    (ringInv r → occ r ≤ r.size) ∧
    (ringInv r →
      ringInv (ck_ring_enqueue_spsc r b e).ring ∧
      ringInv (ck_ring_enqueue_spsc_size r b e).ring ∧
      ringInv (ck_ring_dequeue_spsc r b).ring ∧
      ringInv (ck_ring_dequeue_spmc r b).ring ∧
      ringInv (ck_ring_trydequeue_spmc r b).ring) ∧
    ((ck_ring_enqueue_spsc r b e).ring.c_head = r.c_head ∧
      counterStep r.p_tail (ck_ring_enqueue_spsc r b e).ring.p_tail) ∧
    ((ck_ring_enqueue_spsc_size r b e).ring.c_head = r.c_head ∧
      counterStep r.p_tail (ck_ring_enqueue_spsc_size r b e).ring.p_tail) ∧
    ((ck_ring_dequeue_spsc r b).ring.p_tail = r.p_tail ∧
      counterStep r.c_head (ck_ring_dequeue_spsc r b).ring.c_head) ∧
    ((ck_ring_dequeue_spmc r b).ring.p_tail = r.p_tail ∧
      counterStep r.c_head (ck_ring_dequeue_spmc r b).ring.c_head) ∧
    ((ck_ring_trydequeue_spmc r b).ring.p_tail = r.p_tail ∧
      counterStep r.c_head (ck_ring_trydequeue_spmc r b).ring.c_head) := by
  obtain ⟨hmc, htc⟩ := spmc_dequeues_agree_seq r b
  refine ⟨?_, ?_, ?_, ?_, ?_, ?_, ?_, ?_⟩
  · intro hs2 hdvd hsU
    have hocc0 : occ (ck_ring_init r s) = 0 := by
      show usub 0 0 = 0
      unfold usub
      simp
    have hsize : (ck_ring_init r s).size = s := rfl
    exact ⟨⟨⟨U_pos, U_pos, hs2, hsU, hdvd, rfl⟩, by rw [hocc0, hsize]; omega⟩,
      hocc0⟩
  · intro h
    exact le_of_lt h.2
  · intro h
    refine ⟨ringInv_enqueue_spsc r b e h, ?_, ringInv_dequeue_spsc r b h, ?_, ?_⟩
    · rw [enqueue_spsc_size_ring_eq]
      exact ringInv_enqueue_spsc r b e h
    · rw [hmc]
      exact ringInv_dequeue_spsc r b h
    · rw [htc]
      exact ringInv_dequeue_spsc r b h
  · exact enqueue_spsc_counters r b e
  · rw [enqueue_spsc_size_ring_eq]
    exact enqueue_spsc_counters r b e
  · exact dequeue_spsc_counters r b
  · rw [hmc]
    exact dequeue_spsc_counters r b
  · rw [htc]
    exact dequeue_spsc_counters r b

/-- Witness for C3: the invariant established by `ck_ring_init` at size 4
and preserved by one enqueue on a concrete ring. -/
theorem c3_witness :
    ringInv (ck_ring_init ⟨9, 9, 9, 9⟩ 4) ∧
      occ (ck_ring_init ⟨9, 9, 9, 9⟩ 4) = 0 :=
  (c3_invariant_and_monotonicity ⟨9, 9, 9, 9⟩ (fun _ => (0 : Nat)) 0 4).1
    (by decide) (by decide) (by decide)

/-! ## Driver unfolding lemmas -/

lemma enqueueAll_cons_ok (r r1 : ck_ring) (b b1 : RingBuf α) (e : α)
    (es : List α) (h1 : ck_ring_enqueue_spsc r b e = ⟨true, r1, b1⟩) :
    enqueueAll r b (e :: es) = enqueueAll r1 b1 es := by
  conv_lhs => rw [enqueueAll]
  rw [h1]
  rfl

lemma dequeueN_succ_ok (r r1 : ck_ring) (b : RingBuf α) (d : α) (k : Nat)
    (h1 : ck_ring_dequeue_spsc r b = ⟨true, r1, some d⟩) :
    dequeueN r b (k + 1) =
      ((dequeueN r1 b k).1, (dequeueN r1 b k).2.1,
        d :: (dequeueN r1 b k).2.2) := by
  conv_lhs => rw [dequeueN]
  rw [h1]

lemma altPairs_cons_ok (r r1 r2 : ck_ring) (b b1 : RingBuf α) (e d : α)
    (es : List α)
    (h1 : ck_ring_enqueue_spsc r b e = ⟨true, r1, b1⟩)
    (h2 : ck_ring_dequeue_spsc r1 b1 = ⟨true, r2, some d⟩) :
    altPairs r b (e :: es) =
      match altPairs r2 b1 es with
      | some (r3, b3, ds) => some (r3, b3, d :: ds)
      | none => none := by
  conv_lhs => rw [altPairs]
  rw [h1]
  simp only
  rw [h2]
  rfl

/-- Enqueuing `es` one by one into a ring whose consumer sits at zero and
producer at `j`, with room for all of them, succeeds throughout, advances
the producer by the length, writes the entries at consecutive slots
`j, j+1, ...`, and leaves every other slot untouched. -/
lemma enqueueAll_from_zero (s : Nat) (hs2 : 2 ≤ s) (hsU : s < U)
    (hdvd : s ∣ U) :
    ∀ (es : List α) (j : Nat) (b : RingBuf α), j + es.length ≤ s - 1 →
      (enqueueAll ⟨0, j, s, s - 1⟩ b es).1 = true ∧
      (enqueueAll ⟨0, j, s, s - 1⟩ b es).2.1 = ⟨0, j + es.length, s, s - 1⟩ ∧
      (∀ m, (m < j ∨ j + es.length ≤ m) →
        (enqueueAll ⟨0, j, s, s - 1⟩ b es).2.2 m = b m) ∧
      (∀ i : Fin es.length,
        (enqueueAll ⟨0, j, s, s - 1⟩ b es).2.2 (j + i.val) = es.get i) := by
  intro es
  induction es with
  | nil =>
    intro j b _
    refine ⟨rfl, by simp [enqueueAll], fun m _ => rfl, fun i => i.elim0⟩
  | cons e es ih =>
    intro j b hlen
    simp only [List.length_cons] at hlen
    have hcond : ¬ enqFullCond (⟨0, j, s, s - 1⟩ : ck_ring) := by
      show ¬ ((j + 1) % U &&& (s - 1) = 0 &&& (s - 1))
      rw [mask_eq_mod hdvd, mask_eq_mod hdvd, mod_U_mod hdvd]
      rw [Nat.mod_eq_of_lt (show j + 1 < s by omega), Nat.zero_mod]
      omega
    have hj1U : (j + 1) % U = j + 1 := Nat.mod_eq_of_lt (by omega)
    have hjmask : j &&& (s - 1) = j := by
      rw [mask_eq_mod hdvd]
      exact Nat.mod_eq_of_lt (by omega)
    have hstep : ck_ring_enqueue_spsc (⟨0, j, s, s - 1⟩ : ck_ring) b e =
        ⟨true, ⟨0, j + 1, s, s - 1⟩, bufWrite b j e⟩ := by
      rw [enqueue_spsc_not_full _ _ _ hcond]
      simp [hj1U, hjmask]
    rw [enqueueAll_cons_ok _ _ _ _ _ _ hstep]
    obtain ⟨ihok, ihring, ihout, ihin⟩ :=
      ih (j + 1) (bufWrite b j e) (by omega)
    refine ⟨ihok, ?_, ?_, ?_⟩
    · rw [ihring]
      simp only [List.length_cons]
      have h1 : j + 1 + es.length = j + (es.length + 1) := by omega
      rw [h1]
    · intro m hm
      simp only [List.length_cons] at hm
      rw [ihout m (by omega)]
      unfold bufWrite
      rw [if_neg (by omega)]
    · intro i
      rcases i with ⟨iv, hiv⟩
      simp only [List.length_cons] at hiv
      cases iv with
      | zero =>
        have h0 : j + 0 = j := by omega
        rw [h0, ihout j (Or.inl (by omega))]
        unfold bufWrite
        rw [if_pos rfl]
        rfl
      | succ n =>
        have h1 : j + (n + 1) = (j + 1) + n := by omega
        rw [h1]
        have hn : n < es.length := by omega
        rw [ihin ⟨n, hn⟩]
        rfl

/-- Draining `k` entries from a ring whose consumer sits at `i` and producer
at `n ≤ size - 1` succeeds and returns the slot contents
`b i, b (i+1), ..., b (i+k-1)` in order. -/
lemma dequeueN_drain (s : Nat) (hs2 : 2 ≤ s) (hsU : s < U) (hdvd : s ∣ U)
    (n : Nat) (hn : n ≤ s - 1) :
    ∀ (k i : Nat) (b : RingBuf α), i + k ≤ n →
      dequeueN ⟨i, n, s, s - 1⟩ b k =
        (true, ⟨i + k, n, s, s - 1⟩,
          (List.range k).map (fun t => b (i + t))) := by
  intro k
  induction k with
  | zero =>
    intro i b _
    simp [dequeueN]
  | succ k ih =>
    intro i b hik
    have hne : i ≠ n := by omega
    have hi1U : (i + 1) % U = i + 1 := Nat.mod_eq_of_lt (by omega)
    have himask : i &&& (s - 1) = i := by
      rw [mask_eq_mod hdvd]
      exact Nat.mod_eq_of_lt (by omega)
    have hdq : ck_ring_dequeue_spsc (⟨i, n, s, s - 1⟩ : ck_ring) b =
        ⟨true, ⟨i + 1, n, s, s - 1⟩, some (b i)⟩ := by
      rw [dequeue_spsc_nonempty _ _ hne]
      simp [hi1U, himask, bufRead]
    rw [dequeueN_succ_ok _ _ _ _ _ hdq, ih (i + 1) b (by omega)]
    refine congrArg (Prod.mk true) ?_
    refine congrArg₂ Prod.mk ?_ ?_
    · have h1 : i + 1 + k = i + (k + 1) := by omega
      rw [h1]
    · rw [List.range_succ_eq_map]
      simp only [List.map_cons, List.map_map]
      have h0 : i + 0 = i := by omega
      rw [h0]
      refine congrArg (List.cons (b i)) ?_
      refine List.map_congr_left ?_
      intro t _
      simp only [Function.comp]
      refine congrArg b (by omega)

/-- C1: sequential SPSC round trip.  Enqueue any sequence of at most
`capacity - 1` entries into a freshly initialized ring: every enqueue
returns true; dequeuing `k ≤ n` times returns true each time and yields
exactly the first `k` enqueued entries in order (the dequeued sequence is a
prefix of the enqueued one); draining all `n` returns the full sequence, and
one further dequeue returns false. -/
theorem c1_spsc_fifo_roundtrip (r : ck_ring) (b : RingBuf α) (es : List α)
    (s : Nat) (hs2 : 2 ≤ s) (hsU : s < U) (hdvd : s ∣ U)
    (hlen : es.length ≤ s - 1) :
    (enqueueAll (ck_ring_init r s) b es).1 = true ∧
    (∀ k, k ≤ es.length →
      (dequeueN (enqueueAll (ck_ring_init r s) b es).2.1
          (enqueueAll (ck_ring_init r s) b es).2.2 k).1 = true ∧
      (dequeueN (enqueueAll (ck_ring_init r s) b es).2.1
          (enqueueAll (ck_ring_init r s) b es).2.2 k).2.2 = es.take k) ∧
    (dequeueN (enqueueAll (ck_ring_init r s) b es).2.1
        (enqueueAll (ck_ring_init r s) b es).2.2 es.length).2.2 = es ∧
    (ck_ring_dequeue_spsc
      (dequeueN (enqueueAll (ck_ring_init r s) b es).2.1
          (enqueueAll (ck_ring_init r s) b es).2.2 es.length).2.1
      (enqueueAll (ck_ring_init r s) b es).2.2).ok = false := by
  have hinit : ck_ring_init r s = (⟨0, 0, s, s - 1⟩ : ck_ring) := rfl
  rw [hinit]
  obtain ⟨hok, hring, hout, hin⟩ :=
    enqueueAll_from_zero s hs2 hsU hdvd es 0 b (by omega)
  simp only [Nat.zero_add] at hring hout hin
  rw [hring]
  have hdrain : ∀ k, k ≤ es.length →
      dequeueN (⟨0, es.length, s, s - 1⟩ : ck_ring)
          (enqueueAll (⟨0, 0, s, s - 1⟩ : ck_ring) b es).2.2 k =
        (true, ⟨k, es.length, s, s - 1⟩,
          (List.range k).map
            (fun t => (enqueueAll (⟨0, 0, s, s - 1⟩ : ck_ring) b es).2.2
              t)) := by
    intro k hk
    have h := dequeueN_drain s hs2 hsU hdvd es.length hlen k 0
      (enqueueAll (⟨0, 0, s, s - 1⟩ : ck_ring) b es).2.2 (by omega)
    simpa using h
  have hvals : ∀ k, k ≤ es.length →
      (List.range k).map
          (fun t => (enqueueAll (⟨0, 0, s, s - 1⟩ : ck_ring) b es).2.2
            t) = es.take k := by
    intro k hk
    refine List.ext_getElem ?_ ?_
    · simp
      omega
    · intro nn h1 h2
      simp only [List.getElem_map, List.getElem_range, List.getElem_take]
      have hnn : nn < es.length := by simp at h1; omega
      have := hin ⟨nn, hnn⟩
      simp only [List.get_eq_getElem] at this
      exact this
  refine ⟨hok, ?_, ?_, ?_⟩
  · intro k hk
    rw [hdrain k hk, hvals k hk]
    exact ⟨rfl, rfl⟩
  · rw [hdrain es.length le_rfl, hvals es.length le_rfl]
    exact List.take_length es
  · rw [hdrain es.length le_rfl]
    rw [dequeue_spsc_empty _ _ rfl]

/-- Witness for C1: round trip of three entries through a size-4 ring. -/
theorem c1_witness :
    (dequeueN
        (enqueueAll (ck_ring_init ⟨7, 7, 7, 7⟩ 4) (fun _ => (0 : Nat))
          [10, 20, 30]).2.1
        (enqueueAll (ck_ring_init ⟨7, 7, 7, 7⟩ 4) (fun _ => (0 : Nat))
          [10, 20, 30]).2.2 3).2.2 = [10, 20, 30] :=
  (c1_spsc_fifo_roundtrip ⟨7, 7, 7, 7⟩ (fun _ => (0 : Nat)) [10, 20, 30] 4
    (by decide) (by decide) (by decide) (by decide)).2.2.1

/-- C7: counter wraparound.  From any equal counter start `v < 2^32`
(in particular one just below `2^32`), every alternating
enqueue/dequeue pair on a power-of-two ring succeeds and returns the
enqueued entries in FIFO order, for a sequence of any length (so in
particular `2 * size` pairs crossing the wrap), the counters advancing
modulo `2^32`. -/
theorem c7_wraparound_fifo (s : Nat) (hs2 : 2 ≤ s) (hsU : s < U)
    (hdvd : s ∣ U) :
    ∀ (es : List α) (v : Nat) (b : RingBuf α), v < U →
      ∃ b2, altPairs ⟨v, v, s, s - 1⟩ b es =
        some (⟨(v + es.length) % U, (v + es.length) % U, s, s - 1⟩, b2, es) := by
  intro es
  induction es with
  | nil =>
    intro v b hv
    refine ⟨b, ?_⟩
    simp [altPairs, Nat.mod_eq_of_lt hv]
  | cons e es ih =>
    intro v b hv
    have hcond : ¬ enqFullCond (⟨v, v, s, s - 1⟩ : ck_ring) := by
      show ¬ ((v + 1) % U &&& (s - 1) = v &&& (s - 1))
      rw [mask_eq_mod hdvd, mask_eq_mod hdvd, mod_U_mod hdvd]
      exact succ_mod_ne hs2 v
    have hstep : ck_ring_enqueue_spsc (⟨v, v, s, s - 1⟩ : ck_ring) b e =
        ⟨true, ⟨v, (v + 1) % U, s, s - 1⟩, bufWrite b (v &&& (s - 1)) e⟩ := by
      rw [enqueue_spsc_not_full _ _ _ hcond]
    have hne : v ≠ (v + 1) % U := by unfold U at *; omega
    have hdq : ck_ring_dequeue_spsc (⟨v, (v + 1) % U, s, s - 1⟩ : ck_ring)
        (bufWrite b (v &&& (s - 1)) e) =
        ⟨true, ⟨(v + 1) % U, (v + 1) % U, s, s - 1⟩, some e⟩ := by
      rw [dequeue_spsc_nonempty _ _ hne]
      unfold bufRead bufWrite
      simp
    obtain ⟨b2, hb2⟩ := ih ((v + 1) % U) (bufWrite b (v &&& (s - 1)) e)
      (Nat.mod_lt _ U_pos)
    refine ⟨b2, ?_⟩
    rw [altPairs_cons_ok _ _ _ _ _ _ _ _ hstep hdq, hb2]
    have harith : ((v + 1) % U + es.length) % U = (v + (es.length + 1)) % U := by
      unfold U at *
      omega
    rw [harith]
    rfl

/-- Witness for C7: sixteen pairs through a size-8 ring whose counters start
three below `2^32`, crossing the counter wrap in FIFO order. -/
theorem c7_witness :
    ∃ b2, altPairs (⟨U - 3, U - 3, 8, 7⟩ : ck_ring) (fun _ => (0 : Nat))
        [1, 2, 3, 4, 5, 6, 7, 8, 9, 10, 11, 12, 13, 14, 15, 16] =
      some (⟨(U - 3 + 16) % U, (U - 3 + 16) % U, 8, 7⟩, b2,
        [1, 2, 3, 4, 5, 6, 7, 8, 9, 10, 11, 12, 13, 14, 15, 16]) := by
  have h := c7_wraparound_fifo 8 (by decide) (by decide) (by decide)
    [1, 2, 3, 4, 5, 6, 7, 8, 9, 10, 11, 12, 13, 14, 15, 16] (U - 3)
    (fun _ => (0 : Nat)) (by unfold U; omega)
  simpa using h

/-!
## Interleaved SPMC system

A sequentially consistent, instruction-granular small-step semantics for one
producer looping `ck_ring_enqueue_spsc` over a fixed entry list `es` (ck_ring
enqueue is shared by SPSC/SPMC) and any number of consumer threads looping
`ck_ring_dequeue_spmc`.  Each step performs exactly one shared-memory access
(fences order accesses and are identities under sequential consistency;
thread-local computation is folded into the adjacent access).

The counters are carried as ghost absolute naturals `heads` / `tails`; the
32-bit machine values stored in `c_head` / `p_tail` are `heads % U` and
`tails % U`, and every guard in the step relation compares those stored
values exactly as the source does (the CAS succeeds iff the stored `c_head`
equals the stored snapshot), so the semantics never consults the ghost part.
-/

/-- Producer program counter inside one `ck_ring_enqueue_spsc` call:
between calls / retrying the full test; full test passed, about to store the
entry into its slot; slot stored, about to publish the new `p_tail`. -/
inductive ProdPc (α : Type) where
  | idle : ProdPc α
  | store : α → ProdPc α
  | publish : ProdPc α

/-- Consumer program counter inside `ck_ring_dequeue_spmc`: between calls;
holding a `c_head` snapshot, about to load `p_tail`; nonempty test passed,
about to latch the slot; slot latched, about to CAS.  Snapshots are ghost
absolutes; the machine register holds the snapshot mod `2^32`. -/
inductive ConsPc (α : Type) where
  | idle : ConsPc α
  | snap : Nat → ConsPc α
  | loaded : Nat → ConsPc α
  | ready : Nat → α → ConsPc α

/-- Global state: ghost absolute counters, slot array, producer and consumer
program counters, and the log of delivered entries in claim (CAS) order. -/
structure SpmcSys (α : Type) where
  heads : Nat
  tails : Nat
  slots : RingBuf α
  prodPc : ProdPc α
  cons : Nat → ConsPc α
  log : List α

/-- Replace the program counter of consumer `i`. -/
def consSet (f : Nat → ConsPc α) (i : Nat) (p : ConsPc α) : Nat → ConsPc α :=
  fun j => if j = i then p else f j

/-- One interleaved step of the system, for ring size `s` (mask `s - 1`) and
producer input `es`.  Producer steps follow `ck_ring_enqueue_spsc` (load
`c_head` and run the full test; store the slot; store `p_tail`), retrying
forever on a full ring; consumer steps follow `ck_ring_dequeue_spmc` (load
`c_head`; load `p_tail` and compare; `ck_pr_load_ptr` the slot; CAS, which
on failure restarts the loop body with the observed `c_head` as snapshot). -/
inductive SpmcStep (s : Nat) (es : List α) : SpmcSys α → SpmcSys α → Prop where
  | prod_check_full (σ : SpmcSys α) (h1 : σ.prodPc = ProdPc.idle)
      (h2 : σ.tails < es.length)
      (hfull : ((σ.tails % U + 1) % U) &&& (s - 1) = (σ.heads % U) &&& (s - 1)) :
      SpmcStep s es σ σ
  | prod_check_ok (σ : SpmcSys α) (h1 : σ.prodPc = ProdPc.idle)
      (h2 : σ.tails < es.length)
      (hok : ¬ ((σ.tails % U + 1) % U) &&& (s - 1) = (σ.heads % U) &&& (s - 1)) :
      SpmcStep s es σ { σ with prodPc := ProdPc.store (es.get ⟨σ.tails, h2⟩) }
  | prod_store (σ : SpmcSys α) (v : α) (h1 : σ.prodPc = ProdPc.store v) :
      SpmcStep s es σ { σ with
        slots := bufWrite σ.slots ((σ.tails % U) &&& (s - 1)) v,
        prodPc := ProdPc.publish }
  | prod_publish (σ : SpmcSys α) (h1 : σ.prodPc = ProdPc.publish) :
      SpmcStep s es σ { σ with tails := σ.tails + 1, prodPc := ProdPc.idle }
  | cons_load (σ : SpmcSys α) (i : Nat) (h1 : σ.cons i = ConsPc.idle) :
      SpmcStep s es σ { σ with cons := consSet σ.cons i (ConsPc.snap σ.heads) }
  | cons_check_empty (σ : SpmcSys α) (i a : Nat)
      (h1 : σ.cons i = ConsPc.snap a) (hemp : a % U = σ.tails % U) :
      SpmcStep s es σ { σ with cons := consSet σ.cons i ConsPc.idle }
  | cons_check_nonempty (σ : SpmcSys α) (i a : Nat)
      (h1 : σ.cons i = ConsPc.snap a) (hne : ¬ a % U = σ.tails % U) :
      SpmcStep s es σ { σ with cons := consSet σ.cons i (ConsPc.loaded a) }
  | cons_latch (σ : SpmcSys α) (i a : Nat) (h1 : σ.cons i = ConsPc.loaded a) :
      SpmcStep s es σ { σ with
        cons := consSet σ.cons i
          (ConsPc.ready a (bufRead σ.slots ((a % U) &&& (s - 1)))) }
  | cons_cas_ok (σ : SpmcSys α) (i a : Nat) (r : α)
      (h1 : σ.cons i = ConsPc.ready a r) (hcas : σ.heads % U = a % U) :
      SpmcStep s es σ { σ with
        heads := σ.heads + 1
        cons := consSet σ.cons i ConsPc.idle
        log := σ.log ++ [r] }
  | cons_cas_fail (σ : SpmcSys α) (i a : Nat) (r : α)
      (h1 : σ.cons i = ConsPc.ready a r) (hcas : ¬ σ.heads % U = a % U) :
      SpmcStep s es σ { σ with cons := consSet σ.cons i (ConsPc.snap σ.heads) }

/-- State right after `ck_ring_init`: both counters zero, all threads
between calls, nothing delivered. -/
def spmcInit (b : RingBuf α) : SpmcSys α :=
  ⟨0, 0, b, ProdPc.idle, fun _ => ConsPc.idle, []⟩

/-- All states reachable by interleaving from the freshly initialized
ring. -/
def SpmcReach (s : Nat) (es : List α) (b : RingBuf α) (σ : SpmcSys α) : Prop :=
  Relation.ReflTransGen (SpmcStep s es) (spmcInit b) σ

/-- Inductive system invariant for the interleaved SPMC protocol. -/
structure SpmcInv (s : Nat) (es : List α) (σ : SpmcSys α) : Prop where
  h_ht : σ.heads ≤ σ.tails
  h_te : σ.tails ≤ es.length
  h_occ : σ.tails ≤ σ.heads + (s - 1)
  h_wr : ∀ v, σ.prodPc = ProdPc.store v →
    σ.tails < es.length ∧ σ.tails + 2 ≤ σ.heads + s ∧
      ∀ hlt : σ.tails < es.length, v = es.get ⟨σ.tails, hlt⟩
  h_pub : σ.prodPc = ProdPc.publish →
    σ.tails < es.length ∧ σ.tails + 2 ≤ σ.heads + s ∧
      ∀ hlt : σ.tails < es.length,
        σ.slots ((σ.tails % U) &&& (s - 1)) = es.get ⟨σ.tails, hlt⟩
  h_snap : ∀ i a, σ.cons i = ConsPc.snap a → a ≤ σ.heads
  h_ne : ∀ i a, σ.cons i = ConsPc.loaded a →
    a ≤ σ.heads ∧ (a = σ.heads → a < σ.tails)
  h_ready : ∀ i a r, σ.cons i = ConsPc.ready a r →
    a ≤ σ.heads ∧ (a = σ.heads → ∃ hlt : a < σ.tails,
      r = es.get ⟨a, lt_of_lt_of_le hlt h_te⟩)
  h_slots : ∀ j, σ.heads ≤ j → ∀ hj : j < σ.tails,
    σ.slots ((j % U) &&& (s - 1)) = es.get ⟨j, lt_of_lt_of_le hj h_te⟩
  h_log : σ.log = es.take σ.heads

/-- Slot index computed by the machine from a stored counter value equals
the absolute counter reduced mod `size`. -/
lemma slot_index (hdvd : s ∣ U) (j : Nat) : (j % U) &&& (s - 1) = j % s := by
  rw [mask_eq_mod hdvd, mod_U_mod hdvd]

/-- Two absolute positions less than one ring-size apart never collide in
the slot array. -/
lemma mod_ne_of_window (hs0 : 0 < s) (j t : Nat) (h1 : j < t) (h2 : t < j + s) :
    ¬ t % s = j % s := by
  intro h
  have hme : Nat.ModEq s j t := h.symm
  have hdv : s ∣ t - j := (Nat.modEq_iff_dvd' (le_of_lt h1)).mp hme
  have := Nat.le_of_dvd (by omega) hdv
  omega

/-- The machine full test, in terms of the ghost absolute counters: under
the occupancy invariant it fires exactly when the ring holds `size - 1`
entries. -/
lemma full_test_iff (hdvd : s ∣ U) (hh : h ≤ t) (ho : t ≤ h + (s - 1)) :
    (((t % U + 1) % U) &&& (s - 1) = (h % U) &&& (s - 1)) ↔ t + 1 = h + s := by
  rw [mask_eq_mod hdvd, mask_eq_mod hdvd, mod_U_mod hdvd, mod_U_mod hdvd]
  have e1 : (t % U + 1) % s = (t + 1) % s :=
    Nat.ModEq.add_right 1 (mod_U_mod hdvd t)
  rw [e1]
  constructor
  · intro hmod
    have hme : Nat.ModEq s h (t + 1) := hmod.symm
    have hdv : s ∣ (t + 1) - h := (Nat.modEq_iff_dvd' (by omega)).mp hme
    have hle := Nat.le_of_dvd (by omega) hdv
    have hs0 : 0 < s := by
      rcases Nat.eq_zero_or_pos s with h0 | h0
      · subst h0
        simp at hdv
        omega
      · exact h0
    omega
  · intro hsum
    rw [hsum, Nat.add_mod_right]

/-- Stored 32-bit counter values determine the absolute ghosts below the
wrap bound. -/
lemma stored_inj (ha : a < U) (hb : b < U) (h : a % U = b % U) : a = b := by
  rwa [Nat.mod_eq_of_lt ha, Nat.mod_eq_of_lt hb] at h

lemma bufWrite_at (b : RingBuf α) (i : Nat) (v : α) : bufWrite b i v i = v := by
  simp [bufWrite]

lemma bufWrite_other (b : RingBuf α) (i j : Nat) (v : α) (h : j ≠ i) :
    bufWrite b i v j = b j := by
  simp [bufWrite, h]

lemma consSet_at (f : Nat → ConsPc α) (i : Nat) (p : ConsPc α) :
    consSet f i p i = p := by
  simp [consSet]

lemma consSet_other (f : Nat → ConsPc α) (i j : Nat) (p : ConsPc α)
    (h : j ≠ i) : consSet f i p j = f j := by
  simp [consSet, h]

lemma take_succ_get (l : List β) (n : Nat) (h : n < l.length) :
    l.take (n + 1) = l.take n ++ [l.get ⟨n, h⟩] := by
  rw [List.take_succ, List.getElem?_eq_getElem h]
  simp

/-- One interleaved step preserves the SPMC system invariant. -/
lemma spmcInv_step (hs2 : 2 ≤ s) (hdvd : s ∣ U) (hlen : es.length < U)
    {σ σ2 : SpmcSys α} (hstep : SpmcStep s es σ σ2) (inv : SpmcInv s es σ) :
    SpmcInv s es σ2 := by
  obtain ⟨i1, i2, i3, i4, i5, i6, i7, i8, i9, i10⟩ := inv
  cases hstep with
  | prod_check_full h1 h2 hfull =>
    exact ⟨i1, i2, i3, i4, i5, i6, i7, i8, i9, i10⟩
  | prod_check_ok h1 h2 hok =>
    have hroom : σ.tails + 2 ≤ σ.heads + s := by
      have hnf : ¬ (σ.tails + 1 = σ.heads + s) :=
        fun hh => hok ((full_test_iff hdvd i1 i3).mpr hh)
      omega
    refine ⟨i1, i2, i3, ?_, ?_, i6, i7, i8, i9, i10⟩
    · intro v' hv'
      have hv2 : ProdPc.store (es.get ⟨σ.tails, h2⟩) = ProdPc.store v' := hv'
      injection hv2 with hv3
      subst hv3
      exact ⟨h2, hroom, fun _ => rfl⟩
    · intro hp
      exact ProdPc.noConfusion (show ProdPc.store (es.get ⟨σ.tails, h2⟩) =
        ProdPc.publish from hp)
  | prod_store v h1 =>
    obtain ⟨hlt, hroom, hv⟩ := i4 v h1
    refine ⟨i1, i2, i3, ?_, ?_, i6, i7, i8, ?_, i10⟩
    · intro v' hv'
      exact ProdPc.noConfusion
        (show ProdPc.publish = ProdPc.store v' from hv')
    · intro _
      refine ⟨hlt, hroom, fun hlt2 => ?_⟩
      show bufWrite σ.slots ((σ.tails % U) &&& (s - 1)) v
        ((σ.tails % U) &&& (s - 1)) = es.get ⟨σ.tails, hlt2⟩
      rw [bufWrite_at]
      exact hv hlt2
    · intro j hj1 hj2
      have hj1a : σ.heads ≤ j := hj1
      have hj2a : j < σ.tails := hj2
      show bufWrite σ.slots ((σ.tails % U) &&& (s - 1)) v
        ((j % U) &&& (s - 1)) = es.get ⟨j, lt_of_lt_of_le hj2 i2⟩
      rw [slot_index hdvd, slot_index hdvd]
      have hneq : j % s ≠ σ.tails % s := by
        have hw : σ.tails < j + s := by omega
        intro hh
        exact mod_ne_of_window (by omega) j σ.tails hj2a hw hh.symm
      rw [bufWrite_other _ _ _ _ hneq]
      have h9 := i9 j hj1a hj2a
      rw [slot_index hdvd] at h9
      exact h9
  | prod_publish h1 =>
    obtain ⟨hlt, hroom, hslot⟩ := i5 h1
    refine ⟨?_, ?_, ?_, ?_, ?_, i6, ?_, ?_, ?_, i10⟩
    · show σ.heads ≤ σ.tails + 1
      omega
    · show σ.tails + 1 ≤ es.length
      omega
    · show σ.tails + 1 ≤ σ.heads + (s - 1)
      omega
    · intro v' hv'
      exact ProdPc.noConfusion (show ProdPc.idle = ProdPc.store v' from hv')
    · intro hp
      exact ProdPc.noConfusion (show ProdPc.idle = ProdPc.publish from hp)
    · intro j a hj
      obtain ⟨ha1, ha2⟩ := i7 j a hj
      refine ⟨ha1, fun hh => ?_⟩
      show a < σ.tails + 1
      have := ha2 hh
      omega
    · intro j a r hj
      obtain ⟨ha1, ha2⟩ := i8 j a r hj
      refine ⟨ha1, fun hh => ?_⟩
      obtain ⟨hlt2, hr⟩ := ha2 hh
      exact ⟨by show a < σ.tails + 1; omega, hr⟩
    · intro j hj1 hj2
      have hj1a : σ.heads ≤ j := hj1
      have hj2a : j < σ.tails + 1 := hj2
      show σ.slots ((j % U) &&& (s - 1)) = es.get ⟨j, _⟩
      rcases Nat.lt_or_ge j σ.tails with hcase | hcase
      · exact i9 j hj1a hcase
      · have hjt : j = σ.tails := by omega
        subst hjt
        exact hslot hlt
  | cons_load i h1 =>
    refine ⟨i1, i2, i3, i4, i5, ?_, ?_, ?_, i9, i10⟩
    · intro j a hj
      have hj2 : consSet σ.cons i (ConsPc.snap σ.heads) j = ConsPc.snap a := hj
      by_cases hji : j = i
      · subst hji
        rw [consSet_at] at hj2
        injection hj2 with hv
        subst hv
        exact le_rfl
      · rw [consSet_other _ _ _ _ hji] at hj2
        exact i6 j a hj2
    · intro j a hj
      have hj2 : consSet σ.cons i (ConsPc.snap σ.heads) j = ConsPc.loaded a := hj
      by_cases hji : j = i
      · subst hji
        rw [consSet_at] at hj2
        exact ConsPc.noConfusion hj2
      · rw [consSet_other _ _ _ _ hji] at hj2
        exact i7 j a hj2
    · intro j a r hj
      have hj2 : consSet σ.cons i (ConsPc.snap σ.heads) j = ConsPc.ready a r := hj
      by_cases hji : j = i
      · subst hji
        rw [consSet_at] at hj2
        exact ConsPc.noConfusion hj2
      · rw [consSet_other _ _ _ _ hji] at hj2
        exact i8 j a r hj2
  | cons_check_empty i a h1 hemp =>
    refine ⟨i1, i2, i3, i4, i5, ?_, ?_, ?_, i9, i10⟩
    · intro j a' hj
      have hj2 : consSet σ.cons i ConsPc.idle j = ConsPc.snap a' := hj
      by_cases hji : j = i
      · subst hji
        rw [consSet_at] at hj2
        exact ConsPc.noConfusion hj2
      · rw [consSet_other _ _ _ _ hji] at hj2
        exact i6 j a' hj2
    · intro j a' hj
      have hj2 : consSet σ.cons i ConsPc.idle j = ConsPc.loaded a' := hj
      by_cases hji : j = i
      · subst hji
        rw [consSet_at] at hj2
        exact ConsPc.noConfusion hj2
      · rw [consSet_other _ _ _ _ hji] at hj2
        exact i7 j a' hj2
    · intro j a' r hj
      have hj2 : consSet σ.cons i ConsPc.idle j = ConsPc.ready a' r := hj
      by_cases hji : j = i
      · subst hji
        rw [consSet_at] at hj2
        exact ConsPc.noConfusion hj2
      · rw [consSet_other _ _ _ _ hji] at hj2
        exact i8 j a' r hj2
  | cons_check_nonempty i a h1 hne =>
    have hah : a ≤ σ.heads := i6 i a h1
    refine ⟨i1, i2, i3, i4, i5, ?_, ?_, ?_, i9, i10⟩
    · intro j a' hj
      have hj2 : consSet σ.cons i (ConsPc.loaded a) j = ConsPc.snap a' := hj
      by_cases hji : j = i
      · subst hji
        rw [consSet_at] at hj2
        exact ConsPc.noConfusion hj2
      · rw [consSet_other _ _ _ _ hji] at hj2
        exact i6 j a' hj2
    · intro j a' hj
      have hj2 : consSet σ.cons i (ConsPc.loaded a) j = ConsPc.loaded a' := hj
      by_cases hji : j = i
      · subst hji
        rw [consSet_at] at hj2
        injection hj2 with hv
        subst hv
        refine ⟨hah, fun hh => ?_⟩
        have hh2 : a = σ.heads := hh
        have hat : a ≠ σ.tails := by
          intro hcontra
          exact hne (by rw [hcontra])
        show a < σ.tails
        omega
      · rw [consSet_other _ _ _ _ hji] at hj2
        exact i7 j a' hj2
    · intro j a' r hj
      have hj2 : consSet σ.cons i (ConsPc.loaded a) j = ConsPc.ready a' r := hj
      by_cases hji : j = i
      · subst hji
        rw [consSet_at] at hj2
        exact ConsPc.noConfusion hj2
      · rw [consSet_other _ _ _ _ hji] at hj2
        exact i8 j a' r hj2
  | cons_latch i a h1 =>
    obtain ⟨hah, hat⟩ := i7 i a h1
    refine ⟨i1, i2, i3, i4, i5, ?_, ?_, ?_, i9, i10⟩
    · intro j a' hj
      have hj2 : consSet σ.cons i
          (ConsPc.ready a (bufRead σ.slots ((a % U) &&& (s - 1)))) j =
          ConsPc.snap a' := hj
      by_cases hji : j = i
      · subst hji
        rw [consSet_at] at hj2
        exact ConsPc.noConfusion hj2
      · rw [consSet_other _ _ _ _ hji] at hj2
        exact i6 j a' hj2
    · intro j a' hj
      have hj2 : consSet σ.cons i
          (ConsPc.ready a (bufRead σ.slots ((a % U) &&& (s - 1)))) j =
          ConsPc.loaded a' := hj
      by_cases hji : j = i
      · subst hji
        rw [consSet_at] at hj2
        exact ConsPc.noConfusion hj2
      · rw [consSet_other _ _ _ _ hji] at hj2
        exact i7 j a' hj2
    · intro j a' r' hj
      have hj2 : consSet σ.cons i
          (ConsPc.ready a (bufRead σ.slots ((a % U) &&& (s - 1)))) j =
          ConsPc.ready a' r' := hj
      by_cases hji : j = i
      · subst hji
        rw [consSet_at] at hj2
        injection hj2 with hv1 hv2
        subst hv1
        subst hv2
        refine ⟨hah, fun hh => ?_⟩
        have hh2 : a = σ.heads := hh
        have hlt : a < σ.tails := hat hh2
        refine ⟨hlt, ?_⟩
        show bufRead σ.slots ((a % U) &&& (s - 1)) = es.get ⟨a, _⟩
        unfold bufRead
        exact i9 a (by omega) hlt
      · rw [consSet_other _ _ _ _ hji] at hj2
        exact i8 j a' r' hj2
  | cons_cas_ok i a r h1 hcas =>
    obtain ⟨hah, himp⟩ := i8 i a r h1
    have haeq : σ.heads = a := by
      refine stored_inj ?_ ?_ hcas
      · omega
      · omega
    obtain ⟨hlt, hr⟩ := himp haeq.symm
    refine ⟨?_, i2, ?_, ?_, ?_, ?_, ?_, ?_, ?_, ?_⟩
    · show σ.heads + 1 ≤ σ.tails
      omega
    · show σ.tails ≤ σ.heads + 1 + (s - 1)
      omega
    · intro v' hv'
      obtain ⟨hw1, hw2, hw3⟩ := i4 v' hv'
      refine ⟨hw1, ?_, hw3⟩
      show σ.tails + 2 ≤ σ.heads + 1 + s
      omega
    · intro hp
      obtain ⟨hw1, hw2, hw3⟩ := i5 hp
      refine ⟨hw1, ?_, hw3⟩
      show σ.tails + 2 ≤ σ.heads + 1 + s
      omega
    · intro j a' hj
      have hj2 : consSet σ.cons i ConsPc.idle j = ConsPc.snap a' := hj
      by_cases hji : j = i
      · subst hji
        rw [consSet_at] at hj2
        exact ConsPc.noConfusion hj2
      · rw [consSet_other _ _ _ _ hji] at hj2
        have := i6 j a' hj2
        show a' ≤ σ.heads + 1
        omega
    · intro j a' hj
      have hj2 : consSet σ.cons i ConsPc.idle j = ConsPc.loaded a' := hj
      by_cases hji : j = i
      · subst hji
        rw [consSet_at] at hj2
        exact ConsPc.noConfusion hj2
      · rw [consSet_other _ _ _ _ hji] at hj2
        obtain ⟨ha1, _⟩ := i7 j a' hj2
        refine ⟨by show a' ≤ σ.heads + 1; omega, fun hh => ?_⟩
        have hh2 : a' = σ.heads + 1 := hh
        omega
    · intro j a' r' hj
      have hj2 : consSet σ.cons i ConsPc.idle j = ConsPc.ready a' r' := hj
      by_cases hji : j = i
      · subst hji
        rw [consSet_at] at hj2
        exact ConsPc.noConfusion hj2
      · rw [consSet_other _ _ _ _ hji] at hj2
        obtain ⟨ha1, _⟩ := i8 j a' r' hj2
        refine ⟨by show a' ≤ σ.heads + 1; omega, fun hh => ?_⟩
        have hh2 : a' = σ.heads + 1 := hh
        omega
    · intro j hj1 hj2
      have hj1a : σ.heads + 1 ≤ j := hj1
      have hj2a : j < σ.tails := hj2
      exact i9 j (by omega) hj2a
    · show σ.log ++ [r] = es.take (σ.heads + 1)
      have hhl : σ.heads < es.length := by omega
      rw [take_succ_get es σ.heads hhl, ← i10]
      have hget : r = es.get ⟨σ.heads, hhl⟩ := by
        rw [hr]
        congr 1
        exact Fin.ext haeq.symm
      rw [hget]
  | cons_cas_fail i a r h1 hcas =>
    refine ⟨i1, i2, i3, i4, i5, ?_, ?_, ?_, i9, i10⟩
    · intro j a' hj
      have hj2 : consSet σ.cons i (ConsPc.snap σ.heads) j = ConsPc.snap a' := hj
      by_cases hji : j = i
      · subst hji
        rw [consSet_at] at hj2
        injection hj2 with hv
        subst hv
        exact le_rfl
      · rw [consSet_other _ _ _ _ hji] at hj2
        exact i6 j a' hj2
    · intro j a' hj
      have hj2 : consSet σ.cons i (ConsPc.snap σ.heads) j = ConsPc.loaded a' := hj
      by_cases hji : j = i
      · subst hji
        rw [consSet_at] at hj2
        exact ConsPc.noConfusion hj2
      · rw [consSet_other _ _ _ _ hji] at hj2
        exact i7 j a' hj2
    · intro j a' r' hj
      have hj2 : consSet σ.cons i (ConsPc.snap σ.heads) j = ConsPc.ready a' r' := hj
      by_cases hji : j = i
      · subst hji
        rw [consSet_at] at hj2
        exact ConsPc.noConfusion hj2
      · rw [consSet_other _ _ _ _ hji] at hj2
        exact i8 j a' r' hj2

/-- The freshly initialized system satisfies the invariant. -/
lemma spmcInv_init (hs2 : 2 ≤ s) (es : List α) (b : RingBuf α) :
    SpmcInv s es (spmcInit b) := by
  refine ⟨le_rfl, Nat.zero_le _, Nat.zero_le _, ?_, ?_, ?_, ?_, ?_, ?_, rfl⟩
  · intro v hv
    exact ProdPc.noConfusion (show ProdPc.idle = ProdPc.store v from hv)
  · intro hp
    exact ProdPc.noConfusion (show ProdPc.idle = ProdPc.publish from hp)
  · intro j a hj
    exact ConsPc.noConfusion (show ConsPc.idle = ConsPc.snap a from hj)
  · intro j a hj
    exact ConsPc.noConfusion (show ConsPc.idle = ConsPc.loaded a from hj)
  · intro j a r hj
    exact ConsPc.noConfusion (show ConsPc.idle = ConsPc.ready a r from hj)
  · intro j hj1 hj2
    exact absurd hj2 (Nat.not_lt_zero j)

/-- Every reachable state of the interleaved system satisfies the
invariant. -/
lemma spmcInv_reach (hs2 : 2 ≤ s) (hdvd : s ∣ U) (hlen : es.length < U)
    (b : RingBuf α) (σ : SpmcSys α) (h : SpmcReach s es b σ) :
    SpmcInv s es σ := by
  induction h with
  | refl => exact spmcInv_init hs2 es b
  | tail hsteps hstep ih => exact spmcInv_step hs2 hdvd hlen hstep ih

/-- C9: SPMC exactly-once delivery.  For every interleaving of one producer
running enqueue over a list `es` (of fewer than `2^32` entries, so the
counters cannot lap the CAS) and any number of consumer threads running
`ck_ring_dequeue_spmc` at shared-memory-access granularity, the log of
delivered entries in global claim order (the order of successful CAS
updates of `c_head`) is exactly the first `c_head` entries of the enqueued
sequence in producer order: every dequeued entry was enqueued, each
enqueued entry is claimed by exactly one successful CAS, and claim order
extends producer order (FIFO). -/
theorem c9_spmc_exactly_once (s : Nat) (es : List α) (b : RingBuf α)
    (σ : SpmcSys α) (hs2 : 2 ≤ s) (hdvd : s ∣ U) (hlen : es.length < U)
    (hreach : SpmcReach s es b σ) :
    σ.log = es.take σ.heads ∧ σ.heads ≤ σ.tails ∧ σ.tails ≤ es.length := by
  have inv := spmcInv_reach hs2 hdvd hlen b σ hreach
  exact ⟨inv.h_log, inv.h_ht, inv.h_te⟩

/-- Witness for C9: a concrete seven-step interleaving on a size-2 ring in
which the producer publishes the entry 42 and one consumer claims it. -/
theorem c9_witness : ∃ σ : SpmcSys Nat,
    SpmcReach 2 [42] (fun _ => 0) σ ∧ σ.heads = 1 ∧
    σ.log = [42].take σ.heads ∧ σ.log = [42] := by
  have h2 : (0 : Nat) < ([42] : List Nat).length := by decide
  have s1 : SpmcStep 2 [42] (spmcInit (fun _ => 0))
      (⟨0, 0, fun _ => 0, ProdPc.store 42, fun _ => ConsPc.idle, []⟩ :
        SpmcSys Nat) :=
    SpmcStep.prod_check_ok (spmcInit (fun _ => 0)) rfl h2 (by decide)
  have s2 : SpmcStep 2 [42]
      (⟨0, 0, fun _ => 0, ProdPc.store 42, fun _ => ConsPc.idle, []⟩ :
        SpmcSys Nat)
      (⟨0, 0, bufWrite (fun _ => 0) 0 42, ProdPc.publish,
        fun _ => ConsPc.idle, []⟩ : SpmcSys Nat) :=
    SpmcStep.prod_store _ 42 rfl
  have s3 : SpmcStep 2 [42]
      (⟨0, 0, bufWrite (fun _ => 0) 0 42, ProdPc.publish,
        fun _ => ConsPc.idle, []⟩ : SpmcSys Nat)
      (⟨0, 1, bufWrite (fun _ => 0) 0 42, ProdPc.idle,
        fun _ => ConsPc.idle, []⟩ : SpmcSys Nat) :=
    SpmcStep.prod_publish _ rfl
  have s4 : SpmcStep 2 [42]
      (⟨0, 1, bufWrite (fun _ => 0) 0 42, ProdPc.idle,
        fun _ => ConsPc.idle, []⟩ : SpmcSys Nat)
      (⟨0, 1, bufWrite (fun _ => 0) 0 42, ProdPc.idle,
        consSet (fun _ => ConsPc.idle) 0 (ConsPc.snap 0), []⟩ : SpmcSys Nat) :=
    SpmcStep.cons_load _ 0 rfl
  have s5 : SpmcStep 2 [42]
      (⟨0, 1, bufWrite (fun _ => 0) 0 42, ProdPc.idle,
        consSet (fun _ => ConsPc.idle) 0 (ConsPc.snap 0), []⟩ : SpmcSys Nat)
      (⟨0, 1, bufWrite (fun _ => 0) 0 42, ProdPc.idle,
        consSet (consSet (fun _ => ConsPc.idle) 0 (ConsPc.snap 0)) 0
          (ConsPc.loaded 0), []⟩ : SpmcSys Nat) :=
    SpmcStep.cons_check_nonempty _ 0 0 rfl (by decide)
  have s6 : SpmcStep 2 [42]
      (⟨0, 1, bufWrite (fun _ => 0) 0 42, ProdPc.idle,
        consSet (consSet (fun _ => ConsPc.idle) 0 (ConsPc.snap 0)) 0
          (ConsPc.loaded 0), []⟩ : SpmcSys Nat)
      (⟨0, 1, bufWrite (fun _ => 0) 0 42, ProdPc.idle,
        consSet (consSet (consSet (fun _ => ConsPc.idle) 0 (ConsPc.snap 0)) 0
          (ConsPc.loaded 0)) 0 (ConsPc.ready 0 42), []⟩ : SpmcSys Nat) :=
    SpmcStep.cons_latch _ 0 0 rfl
  have s7 : SpmcStep 2 [42]
      (⟨0, 1, bufWrite (fun _ => 0) 0 42, ProdPc.idle,
        consSet (consSet (consSet (fun _ => ConsPc.idle) 0 (ConsPc.snap 0)) 0
          (ConsPc.loaded 0)) 0 (ConsPc.ready 0 42), []⟩ : SpmcSys Nat)
      (⟨1, 1, bufWrite (fun _ => 0) 0 42, ProdPc.idle,
        consSet (consSet (consSet (consSet (fun _ => ConsPc.idle) 0
          (ConsPc.snap 0)) 0 (ConsPc.loaded 0)) 0 (ConsPc.ready 0 42)) 0
          ConsPc.idle, [42]⟩ : SpmcSys Nat) :=
    SpmcStep.cons_cas_ok _ 0 0 42 rfl rfl
  have hreach : SpmcReach 2 [42] (fun _ => 0)
      (⟨1, 1, bufWrite (fun _ => 0) 0 42, ProdPc.idle,
        consSet (consSet (consSet (consSet (fun _ => ConsPc.idle) 0
          (ConsPc.snap 0)) 0 (ConsPc.loaded 0)) 0 (ConsPc.ready 0 42)) 0
          ConsPc.idle, [42]⟩ : SpmcSys Nat) :=
    ((((((Relation.ReflTransGen.refl.tail s1).tail s2).tail s3).tail
      s4).tail s5).tail s6).tail s7
  have hmain := c9_spmc_exactly_once 2 [42] (fun _ => 0) _
    (by decide) (by decide) (by decide) hreach
  exact ⟨_, hreach, rfl, hmain.1, rfl⟩
